import Mathlib

/-!
# Verification of django-advanced-filters: condition compiler and tree codec

Shallow embedding of `advanced_filters/models.py` and `advanced_filters/admin.py`
(the condition-row → predicate-tree compiler, the condition normalization rules,
and the stored-filter accessors), together with a spec-modelled tree codec
(`advanced_filters/q_serializer.py` is referenced by the source but is not part
of the sources under verification; it is modelled from the specification).

Python values that flow through the code (condition values, stored kwarg values)
are modelled by the `Value` type; Django's `Q` objects (`django.db.models.Q`,
built on `django.utils.tree.Node`, Django 1.7/1.8 era as targeted by the source's
imports `django.db.models.get_model`, `django.contrib.admin.util`,
`request.REQUEST`) are modelled by the `QT` tree type together with faithful
translations of `Node.add`, `Q._combine`, `Q.__and__`, `Q.__or__`,
`Q.__invert__`, `Node.negate` and `Node.__bool__`.
-/

set_option maxRecDepth 10000

namespace AdvFilters

/-- A Python scalar/composite value as it appears in condition rows and in the
kwarg pairs stored inside `Q` objects: `None`, a boolean, a text value, or a
list of text values (e.g. a raw `range` pair). -/
inductive Value where
  | vnone : Value
  | vbool : Bool → Value
  | vstr : String → Value
  | vlist : List String → Value
deriving DecidableEq, Repr

/-- The connector of a `django.utils.tree.Node`: `Q.AND = 'AND'` or
`Q.OR = 'OR'`.  `Q.default = AND`. -/
inductive Conn where
  | and : Conn
  | or : Conn
deriving DecidableEq, Repr

/-- A Django `Q` object / `tree.Node` child.  A node holds an ordered list of
children; each child is either a kwarg pair `(key, value)` (from `Q(**kwargs)`)
or a nested node.  `kw` models the tuple children, `node` models `Q` instances
(children list, connector, negated flag). -/
inductive QT where
  | kw : String → Value → QT
  | node : List QT → Conn → Bool → QT
deriving Repr

/-- `Q()`: empty children, default `AND` connector, not negated. -/
def qEmpty : QT := .node [] .and false

/-- `Q(**{key: value})`: a fresh node whose children are the kwarg items. -/
def qKw (key : String) (v : Value) : QT := .node [.kw key v] .and false

/-- `tree.Node.__bool__`: `bool(self.children)` (Python truthiness of a `Q`).
The `kw` case cannot occur where the source tests truthiness (only `Q`
instances are tested); a kwarg tuple is always truthy in Python. -/
def qBool : QT → Bool
  | .kw _ _ => true
  | .node cs _ _ => !cs.isEmpty

/-- `tree.Node.add(data, conn_type)` (Django 1.7/1.8, squash=True), returning
the updated receiver.  The initial `if data in self.children: return data`
membership test is omitted: CPython list membership falls back to identity
comparison for `Q` objects (no `__eq__`), and every `add` reachable from this
program passes a freshly constructed or distinct object, so the test is always
false there. -/
def qAdd (self data : QT) (conn : Conn) : QT :=
  match self with
  | .kw k v => .kw k v
  | .node cs c n =>
    if c = conn then
      match data with
      | .node dcs dc dn =>
        if !dn && (dc = conn || dcs.length == 1) then
          .node (cs ++ dcs) c n
        else
          .node (cs ++ [data]) c n
      | .kw dk dv => .node (cs ++ [.kw dk dv]) c n
    else
      .node [.node cs c n, data] conn n

/-- `Q._combine(other, conn)`: fresh `Q()` with its connector forced to `conn`,
then `obj.add(self, conn); obj.add(other, conn)`. -/
def qCombine (self other : QT) (conn : Conn) : QT :=
  qAdd (qAdd (.node [] conn false) self conn) other conn

/-- `Q.__and__` (`q1 & q2`). -/
def qAnd (a b : QT) : QT := qCombine a b .and

/-- `tree.Node.negate()`: flip the negated flag of the root. -/
def qNegate : QT → QT
  | .kw k v => .kw k v
  | .node cs c n => .node cs c (!n)

/-- `Q.__invert__` (`~q`): `obj = Q(); obj.add(self, AND); obj.negate()`. -/
def qInvert (q : QT) : QT := qNegate (qAdd (.node [] .and false) q .and)

/-- One `Condition` row (model `Condition` in `models.py`): a field path (or
the `_OR` sentinel), an operator name, a value, a negate flag and a delete
flag. -/
structure Condition where
  field : String
  op : String
  value : Value
  negate : Bool
  delete : Bool
deriving DecidableEq, Repr

/-- The first components of `Condition.OPERATORS` in `models.py`: the fixed
operator vocabulary. -/
def OPERATORS : List String :=
  ["iexact", "icontains", "in", "gt", "gte", "lt", "lte",
   "istartswith", "iendswith", "range", "isnull", "istrue", "isfalse"]

/-- `Condition.build_query_dict`: the single kwarg pair used to build the `Q`
object.  `istrue`/`isfalse` use the bare field key with a boolean value;
`isnull` uses `field__isnull: True`; every other operator uses
`field__operator: value`. -/
def build_query_dict (c : Condition) : String × Value :=
  if c.op = "istrue" then (c.field, .vbool true)
  else if c.op = "isfalse" then (c.field, .vbool false)
  else
    let key := c.field ++ "__" ++ c.op
    if c.op = "isnull" then (key, .vbool true)
    else (key, c.value)

/-- `Condition.make_query`: `query = Q()`, then
`query & ~Q(**query_dict)` when negated, else `query & Q(**query_dict)`. -/
def make_query (c : Condition) : QT :=
  let d := build_query_dict c
  if c.negate then qAnd qEmpty (qInvert (qKw d.1 d.2))
  else qAnd qEmpty (qKw d.1 d.2)

/-- An unhandled Python exception escaping an embedded operation: either an
explicit `raise Exception(...)` in the source, or a `NameError` from the use
of a module-level name the file never imports. -/
inductive PyError where
  | exception : String → PyError
  | nameError : String → PyError
deriving DecidableEq, Repr

/-- One iteration of the loop body of `AdvancedFilterAdmin.generate_query`:
state is the current accumulator `query` and the completed list `ORed`.
`ORed.append(query)` is unconditional — the accumulator is pushed even when it
is the empty `Q()`. -/
def genStep (st : QT × List QT) (c : Condition) : QT × List QT :=
  if c.delete then st
  else if c.field = "_OR" then (qEmpty, st.2 ++ [st.1])
  else (qAnd st.1 (make_query c), st.2)

/-- `AdvancedFilterAdmin.generate_query` (`admin.py`): fold the conditions with
`genStep` starting from `(Q(), [])`.  When `ORed` is empty the accumulator is
returned.  When `ORed` is non-empty the source reaches
`query = reduce(operator.or_, ORed)` — but `admin.py` never imports the
`operator` module, so evaluating the argument `operator.or_` raises
`NameError: name 'operator' is not defined` before `reduce` is ever called
(the preceding `if query: ORed.append(query)` runs but its effect is
unobservable, as the exception propagates out of the method).  The `|`-fold
the line intends is dead code. -/
def generate_query (conds : List Condition) : Except PyError QT :=
  let st := conds.foldl genStep (qEmpty, [])
  if st.2.isEmpty then .ok st.1
  else .error (.nameError "operator")

/-! ## Edit-row dictionaries and `_parse_query_dict` -/

/-- One query-field dictionary as handled by `AdvancedFilter._parse_query_dict`
and produced by raw decoding: keys `field`, `operator`, `value`, optional
`value_from` / `value_to` timestamps, `negate`, `delete`. -/
structure Row where
  field : String
  op : String
  value : Value
  value_from : Option Nat
  value_to : Option Nat
  negate : Bool
  delete : Bool
deriving DecidableEq, Repr

/-- Errors raised by the embedded operations: the query setter's type check,
and the spec-modelled codec error conditions. -/
inductive AFError where
  | notAQObject : AFError
  | budgetExceeded : AFError
  | corruptToken : AFError
deriving DecidableEq, Repr

/-- Python's `str.split('__')`: split a character list at each leftmost
non-overlapping occurrence of the two-character separator `__`. -/
def splitUU : List Char → List (List Char)
  | [] => [[]]
  | '_' :: '_' :: rest => [] :: splitUU rest
  | c :: rest =>
    match splitUU rest with
    | t :: ts => (c :: t) :: ts
    | [] => [[c]]

/-- `field.split('__')` on strings. -/
def splitOn2 (s : String) : List String := (splitUU s.data).map String.mk

/-- Python's `'__'.join(parts)`. -/
def joinUU : List (List Char) → List Char
  | [] => []
  | [x] => x
  | x :: xs => x ++ '_' :: '_' :: joinUU xs

/-- `'__'.join(parts)` on strings. -/
def join2 (parts : List String) : String := String.mk (joinUU (parts.map String.data))

/-- The field/operator suffix split of `_parse_query_dict` (models.py lines
84-93): split the stored field path on `__`; when there are at least two parts
and the last part is a known operator name, the field becomes the join of the
preceding parts and the operator becomes that last part; otherwise both are
unchanged. Returns `(field, operator)`. -/
def splitFieldOp (field op : String) : String × String :=
  let parts := splitOn2 field
  if parts.length < 2 then (field, op)
  else if (parts.getLast?.getD "") ∈ OPERATORS then
    (join2 parts.dropLast, parts.getLast?.getD "")
  else (field, op)

/-- `AdvancedFilter._parse_query_dict` (models.py): normalize one query-field
dict for form initialization.  An `_OR` marker row just gets operator
`iexact`.  Otherwise the operator suffix is split off the field path, the
field path must resolve against the model's field catalog (`resolve` stands
for `get_fields_from_path`; failure raises), a `None` value forces operator
`isnull`, and `True`/`False` values force `istrue`/`isfalse` with the value
cleared.  The range branch (lines 118-121) then evaluates
`dt.fromtimestamp(...)` — but `models.py` never imports `dt` (`datetime`), so
for a list value under operator `range` the method raises
`NameError: name 'dt' is not defined` instead of building the `"start,end"`
date text it intends. -/
def parse_query_dict (resolve : String → Bool) (r : Row) : Except PyError Row :=
  if r.field = "_OR" then .ok { r with op := "iexact" }
  else
    let (field, op) := splitFieldOp r.field r.op
    if !resolve field then
      .error (.exception "Field path could not be followed to a field")
    else
      let r1 : Row := { r with field := field, op := op }
      let r2 : Row :=
        match r1.value with
        | .vnone => { r1 with op := "isnull" }
        | .vbool true => { r1 with op := "istrue", value := .vnone }
        | .vbool false => { r1 with op := "isfalse", value := .vnone }
        | _ => r1
      match r2.value with
      | .vlist _ =>
        if r2.op = "range" then .error (.nameError "dt")
        else .ok r2
      | _ => .ok r2

/-! ## Spec-modelled tree codec (`QSerializer`)

`advanced_filters/q_serializer.py` is imported by `models.py` but is not among
the sources under verification.  The codec below is modelled from the spec
(§4.2 Tree Codec): a deterministic, order-preserving text encoding of a
predicate tree, bounded by the storage field's length budget (2048, the
declared `max_length` of `b64_query`), failing loudly (`budgetExceeded`)
rather than truncating; decoding is the exact inverse on encoded tokens and
fails with `corruptToken` on anything else; raw decoding flattens the tree
into edit rows with an `_OR` marker row at each group boundary. -/

/-- The declared length budget of the stored token: `b64_query`'s
`max_length=2048`. -/
def BUDGET : Nat := 2048

/-- The character for one decimal digit. -/
def digitChar (d : Nat) : Char := Char.ofNat (48 + d)

/-- Big-endian decimal digit extraction, fuel-indexed (the fuel `n` itself is
always enough). -/
def natCharsAux : Nat → Nat → List Char
  | 0, _ => []
  | _ + 1, 0 => []
  | fuel + 1, m + 1 => natCharsAux fuel ((m + 1) / 10) ++ [digitChar ((m + 1) % 10)]

/-- Decimal rendering of a natural number as characters. -/
def natChars (n : Nat) : List Char :=
  if n = 0 then ['0'] else natCharsAux n n

/-- Length-prefixed rendering of a string: `<len>:<chars>`. -/
def renderStr (s : String) : List Char :=
  natChars s.length ++ ':' :: s.data

/-- Rendering of a stored value. -/
def renderValue : Value → List Char
  | .vnone => ['N']
  | .vbool true => ['T']
  | .vbool false => ['F']
  | .vstr s => 'S' :: renderStr s
  | .vlist l => 'L' :: natChars l.length ++ ':' :: (l.map renderStr).flatten

/-- The connector tag character. -/
def connChar : Conn → Char
  | .and => '&'
  | .or => '|'

/-- The negated-flag tag character. -/
def negChar : Bool → Char
  | true => '!'
  | false => '-'

mutual

/-- Rendering of a predicate tree: kwarg pairs as `K<key><value>`, nodes as
`Q<conn><neg><count>:<children>`. -/
def renderQT : QT → List Char
  | .kw k v => 'K' :: (renderStr k ++ renderValue v)
  | .node cs c n =>
      'Q' :: connChar c :: negChar n :: natChars cs.length
        ++ ':' :: renderQTList cs

/-- Rendering of a list of subtrees, in order. -/
def renderQTList : List QT → List Char
  | [] => []
  | q :: qs => renderQT q ++ renderQTList qs

end

/-- Is a character a decimal digit. -/
def isDig (c : Char) : Bool := 48 ≤ c.toNat && c.toNat ≤ 57

/-- Decimal value of a digit-character sequence. -/
def parseDigits (ds : List Char) : Nat :=
  ds.foldl (fun a c => 10 * a + (c.toNat - 48)) 0

/-- Parse a decimal count followed by `:`. -/
def parseNatColon (s : List Char) : Option (Nat × List Char) :=
  let ds := s.takeWhile isDig
  if ds.isEmpty then none
  else
    match s.dropWhile isDig with
    | ':' :: r => some (parseDigits ds, r)
    | _ => none

/-- Parse a length-prefixed string. -/
def parseStr (s : List Char) : Option (String × List Char) := do
  let (n, r) ← parseNatColon s
  if n ≤ r.length then some (String.mk (r.take n), r.drop n) else none

/-- Parse `count` consecutive length-prefixed strings. -/
def parseStrs : Nat → List Char → Option (List String × List Char)
  | 0, r => some ([], r)
  | k + 1, r => do
      let (s, r1) ← parseStr r
      let (ss, r2) ← parseStrs k r1
      some (s :: ss, r2)

/-- Parse a stored value. -/
def parseValue : List Char → Option (Value × List Char)
  | 'N' :: r => some (.vnone, r)
  | 'T' :: r => some (.vbool true, r)
  | 'F' :: r => some (.vbool false, r)
  | 'S' :: r => do
      let (s, r1) ← parseStr r
      some (.vstr s, r1)
  | 'L' :: r => do
      let (n, r1) ← parseNatColon r
      let (ss, r2) ← parseStrs n r1
      some (.vlist ss, r2)
  | _ => none

/-- Parse a connector tag. -/
def parseConn : List Char → Option (Conn × List Char)
  | '&' :: r => some (.and, r)
  | '|' :: r => some (.or, r)
  | _ => none

/-- Parse a negated-flag tag. -/
def parseNeg : List Char → Option (Bool × List Char)
  | '!' :: r => some (true, r)
  | '-' :: r => some (false, r)
  | _ => none

/-- Parse `cnt` consecutive items with the given item parser. -/
def parseChildrenF (p : List Char → Option (QT × List Char)) :
    Nat → List Char → Option (List QT × List Char)
  | 0, r => some ([], r)
  | k + 1, r => do
      let (q, r1) ← p r
      let (qs, r2) ← parseChildrenF p k r1
      some (q :: qs, r2)

/-- Fuel-indexed parser for rendered predicate trees. -/
def parseQT : Nat → List Char → Option (QT × List Char)
  | 0, _ => none
  | _ + 1, 'K' :: r => do
      let (k, r1) ← parseStr r
      let (v, r2) ← parseValue r1
      some (.kw k v, r2)
  | fuel + 1, 'Q' :: r => do
      let (c, r1) ← parseConn r
      let (n, r2) ← parseNeg r1
      let (cnt, r3) ← parseNatColon r2
      let (cs, r4) ← parseChildrenF (parseQT fuel) cnt r3
      some (.node cs c n, r4)
  | _, _ => none

/-- `QSerializer.dumps` (spec-modelled): render the tree; fail with
`budgetExceeded` if the token would exceed the storage budget, otherwise
return the token. -/
def dumps (q : QT) : Except AFError String :=
  let cs := renderQT q
  if BUDGET < cs.length then .error .budgetExceeded
  else .ok (String.mk cs)

/-- `QSerializer.loads` (spec-modelled): parse a stored token back into the
tree; any string that is not exactly an encoded tree fails with
`corruptToken`. -/
def loads (s : String) : Except AFError QT :=
  match parseQT (s.data.length + 1) s.data with
  | some (q, []) => .ok q
  | _ => .error .corruptToken

/-- Concatenate groups of elements with a separator list between groups
(no leading or trailing separator). -/
def sepConcat {α : Type} (sep : List α) : List (List α) → List α
  | [] => []
  | [x] => x
  | x :: xs => x ++ sep ++ sepConcat sep xs

/-- The `_OR` marker row inserted at group boundaries by raw decoding. -/
def orRow : Row := ⟨"_OR", "iexact", .vnone, none, none, false, false⟩

mutual

/-- Flatten the comparisons under one subtree into edit rows, tracking the
negation introduced by negated nodes; the default operator of a reconstructed
row is `iexact` (the operator itself is recovered later from the field-path
suffix by `_parse_query_dict`). -/
def flatRows (neg : Bool) : QT → List Row
  | .kw k v => [⟨k, "iexact", v, none, none, neg, false⟩]
  | .node cs _ n => flatRowsList (xor neg n) cs

/-- Rows of a list of subtrees, in order. -/
def flatRowsList (neg : Bool) : List QT → List Row
  | [] => []
  | q :: qs => flatRows neg q ++ flatRowsList neg qs

end

/-- `QSerializer.get_field_values_list` (spec-modelled): flatten a decoded
tree into the ordered edit-row list, one group per child of a top-level OR
node with `_OR` marker rows between groups; a non-OR tree is a single
group. -/
def get_field_values_list (q : QT) : List Row :=
  match q with
  | .node cs .or false => sepConcat [orRow] (cs.map (flatRows false))
  | _ => flatRows false q

/-- `loads(..., raw=True)` followed by the row flattening, as used by
`AdvancedFilter.list_fields`. -/
def loadsRaw (s : String) : Except AFError (List Row) :=
  (loads s).map get_field_values_list

/-! ## `AdvancedFilter` stored-filter accessors -/

/-- The `AdvancedFilter` model: only the fields the embedded operations touch.
`b64_query` is a `CharField(max_length=2048)`; for an unsaved or empty record
its attribute value is the empty string (Django `CharField` default). -/
structure AdvancedFilter where
  title : String
  url : String
  b64_query : String
  model : String
deriving DecidableEq, Repr

/-- A Python object passed to the `query` setter: either a `Q` object or
anything else. -/
inductive PyObj where
  | q : QT → PyObj
  | other : String → PyObj
deriving Repr

/-- The `AdvancedFilter.query` property getter: empty stored token (falsy
`b64_query`) returns `None` without touching the codec; otherwise the token is
deserialized. -/
def queryGet (af : AdvancedFilter) : Except AFError (Option QT) :=
  if af.b64_query = "" then .ok none
  else (loads af.b64_query).map some

/-- The `AdvancedFilter.query` property setter: anything that is not a `Q`
object raises (`Must only be passed a Django (Q)uery object`) before any
write; a `Q` object is serialized and stored in `b64_query`. -/
def querySetter (af : AdvancedFilter) (v : PyObj) : Except AFError AdvancedFilter :=
  match v with
  | .other _ => .error .notAQObject
  | .q t => (dumps t).map (fun tok => { af with b64_query := tok })

/-- `AdvancedFilter.list_fields`: empty stored token returns the empty row
list; otherwise raw-decode and flatten. -/
def list_fields (af : AdvancedFilter) : Except AFError (List Row) :=
  if af.b64_query = "" then .ok []
  else loadsRaw af.b64_query

/-- Rebuild a `Condition` from a form-initialization row (the inline formset
materializes each initial row as a `Condition` instance before
`generate_query` is called on save). -/
def toCondition (r : Row) : Condition :=
  ⟨r.field, r.op, r.value, r.negate, r.delete⟩

/-- The full round trip of claim C1: compile a condition sequence, encode the
tree, decode the token in raw mode, flatten to rows, re-normalize each row
(`_parse_query_dict` with a catalog that resolves every path), and rebuild the
condition list that a re-save would compile again.  Any stage that raises
(including `generate_query`'s `NameError` on inputs with `_OR` rows) aborts
the round trip. -/
def recompiled (conds : List Condition) : Except String (List Condition) :=
  match generate_query conds with
  | .error _ => .error "generate_query raised"
  | .ok tree =>
    match dumps tree with
    | .error _ => .error "budget exceeded"
    | .ok tok =>
      match loadsRaw tok with
      | .error _ => .error "corrupt token"
      | .ok rows =>
        match rows.mapM (parse_query_dict (fun _ => true)) with
        | .error _ => .error "parse_query_dict raised"
        | .ok rows2 => .ok (rows2.map toCondition)

/-! ## Structure of the compiled tree -/

/-- The child that one (non-deleted, non-`_OR`) condition contributes to its
AND-group: the kwarg pair, wrapped in a negated node when the condition is
negated. -/
def mkChild (c : Condition) : QT :=
  if c.negate then .node [.kw (build_query_dict c).1 (build_query_dict c).2] .and true
  else .kw (build_query_dict c).1 (build_query_dict c).2

/-- The `Q` object accumulated for one AND-group. -/
def andNode (g : List Condition) : QT := .node (g.map mkChild) .and false

/-- A condition row that participates in a group: not deleted and not an
`_OR` marker. -/
def plainCond (c : Condition) : Bool :=
  !c.delete && c.field != "_OR"

theorem make_query_eq (c : Condition) :
    make_query c = .node [mkChild c] .and false := by
  cases hneg : c.negate <;>
    simp [make_query, qAnd, qCombine, qAdd, qInvert, qNegate, qKw, qEmpty, mkChild, hneg]

theorem qAnd_node (xs : List QT) (c : Condition) :
    qAnd (.node xs .and false) (make_query c) = .node (xs ++ [mkChild c]) .and false := by
  simp [make_query_eq, qAnd, qCombine, qAdd]

theorem genStep_plain (st : QT × List QT) (c : Condition) (h : plainCond c = true) :
    genStep st c = (qAnd st.1 (make_query c), st.2) := by
  simp only [plainCond, Bool.and_eq_true, bne_iff_ne, Bool.not_eq_true'] at h
  simp [genStep, h.1, h.2]

theorem genStep_or (st : QT × List QT) (c : Condition)
    (hf : c.field = "_OR") (hd : c.delete = false) :
    genStep st c = (qEmpty, st.2 ++ [st.1]) := by
  simp [genStep, hf, hd]

theorem genStep_delete (st : QT × List QT) (c : Condition) (hd : c.delete = true) :
    genStep st c = st := by
  simp [genStep, hd]

/-- Folding one group of plain rows extends the accumulator's children in
order and leaves the completed list alone. -/
theorem foldl_group (g : List Condition) (hg : g.all plainCond = true) :
    ∀ (xs : List QT) (o : List QT),
      g.foldl genStep (.node xs .and false, o) = (.node (xs ++ g.map mkChild) .and false, o) := by
  induction g with
  | nil => intro xs o; simp
  | cons c g ih =>
    intro xs o
    simp only [List.all_cons, Bool.and_eq_true] at hg
    rw [List.foldl_cons, genStep_plain _ _ hg.1]
    simp only [qAnd_node]
    rw [ih hg.2 (xs ++ [mkChild c]) o]
    simp

/-- Deleted rows are skipped: folding the compiler state over a condition list
is folding it over the undeleted conditions. -/
theorem foldl_genStep_filter (conds : List Condition) :
    ∀ st : QT × List QT,
      conds.foldl genStep st = (conds.filter (fun c => !c.delete)).foldl genStep st := by
  induction conds with
  | nil => intro st; rfl
  | cons c conds ih =>
    intro st
    by_cases hd : c.delete = true
    · rw [List.foldl_cons, genStep_delete st c hd, List.filter_cons_of_neg (by simp [hd])]
      exact ih st
    · rw [List.foldl_cons, List.filter_cons_of_pos (by simp at hd; simp [hd]), List.foldl_cons]
      exact ih _

theorem generate_query_filter_delete (conds : List Condition) :
    generate_query conds = generate_query (conds.filter (fun c => !c.delete)) := by
  simp only [generate_query, foldl_genStep_filter conds (qEmpty, [])]

/-- With no undeleted rows at all the compiler returns the match-everything
`Q()`. -/
theorem generate_query_all_deleted (conds : List Condition)
    (h : ∀ c ∈ conds, c.delete = true) : generate_query conds = .ok qEmpty := by
  rw [generate_query_filter_delete]
  rw [show conds.filter (fun c => !c.delete) = [] from
    List.filter_eq_nil_iff.mpr (fun c hc => by simp [h c hc])]
  rfl

/-- Whether the sequence contains an undeleted `_OR` marker row — exactly the
inputs on which the loop leaves `ORed` non-empty. -/
def hasUndeletedOr (conds : List Condition) : Bool :=
  conds.any (fun c => !c.delete && c.field == "_OR")

/-- The completed-groups list `ORed` ends up empty iff it started empty and no
undeleted `_OR` row occurs. -/
theorem foldl_snd_isEmpty (conds : List Condition) :
    ∀ st : QT × List QT,
      ((conds.foldl genStep st).2).isEmpty = (st.2.isEmpty && !hasUndeletedOr conds) := by
  induction conds with
  | nil => intro st; simp [hasUndeletedOr]
  | cons c conds ih =>
    intro st
    by_cases hd : c.delete = true
    · rw [List.foldl_cons, genStep_delete st c hd, ih st]
      simp [hasUndeletedOr, hd]
    · simp only [Bool.not_eq_true] at hd
      by_cases hf : c.field = "_OR"
      · rw [List.foldl_cons, genStep_or st c hf hd, ih _]
        simp [hasUndeletedOr, hd, hf]
      · have hp : plainCond c = true := by simp [plainCond, hd, hf]
        have hb : (c.field == "_OR") = false := by simp [hf]
        rw [List.foldl_cons, genStep_plain st c hp, ih _]
        simp [hasUndeletedOr, hd, hb]

/-- Any sequence with an undeleted `_OR` marker makes `ORed` non-empty, so
line 244 evaluates the unbound name `operator` and `generate_query` raises. -/
theorem generate_query_or_raises (conds : List Condition)
    (h : hasUndeletedOr conds = true) :
    generate_query conds = .error (.nameError "operator") := by
  have h2 := foldl_snd_isEmpty conds (qEmpty, [])
  rw [h] at h2
  simp only [List.isEmpty_nil, Bool.not_true, Bool.and_false] at h2
  simp [generate_query, h2]

/-- A separator-free sequence of plain rows never touches `ORed`: the
accumulated conjunction is returned. -/
theorem generate_query_plain (g : List Condition) (hg : g.all plainCond = true) :
    generate_query g = .ok (andNode g) := by
  have hfold : g.foldl genStep (qEmpty, []) = (.node (g.map mkChild) .and false, []) := by
    simpa [qEmpty] using foldl_group g hg [] []
  simp [generate_query, hfold, andNode]

/-! ## Codec inversion lemmas -/

theorem digitChar_toNat {d : Nat} (h : d < 10) : (digitChar d).toNat = 48 + d := by
  interval_cases d <;> decide

theorem isDig_digitChar {d : Nat} (h : d < 10) : isDig (digitChar d) = true := by
  interval_cases d <;> decide

theorem natCharsAux_eq (fuel : Nat) :
    ∀ n, n ≤ fuel → natCharsAux fuel n = (Nat.digits 10 n).reverse.map digitChar := by
  induction fuel with
  | zero =>
    intro n hn
    interval_cases n
    simp [natCharsAux]
  | succ f ih =>
    intro n hn
    match n with
    | 0 => simp [natCharsAux]
    | m + 1 =>
      rw [natCharsAux]
      rw [ih ((m + 1) / 10) (by
        have := Nat.div_lt_self (Nat.succ_pos m) (by norm_num : (1:ℕ) < 10)
        omega)]
      rw [Nat.digits_def' (by norm_num : (1:ℕ) < 10) (Nat.succ_pos m)]
      simp

theorem natChars_eq_digits (n : Nat) (h : n ≠ 0) :
    natChars n = (Nat.digits 10 n).reverse.map digitChar := by
  simp only [natChars, h, if_false]
  exact natCharsAux_eq n n le_rfl

theorem natChars_all_dig (n : Nat) : ∀ c ∈ natChars n, isDig c = true := by
  intro c hc
  by_cases h0 : n = 0
  · subst h0
    simp only [natChars, if_true] at hc
    simp only [List.mem_singleton] at hc
    subst hc; decide
  · rw [natChars_eq_digits n h0] at hc
    simp only [List.mem_map, List.mem_reverse] at hc
    obtain ⟨d, hd, rfl⟩ := hc
    exact isDig_digitChar (Nat.digits_lt_base (by norm_num) hd)

theorem natChars_ne_nil (n : Nat) : natChars n ≠ [] := by
  by_cases h0 : n = 0
  · subst h0; simp [natChars]
  · rw [natChars_eq_digits n h0]
    simp only [ne_eq, List.map_eq_nil_iff, List.reverse_eq_nil_iff]
    exact Nat.digits_ne_nil_iff_ne_zero.mpr h0

theorem foldl_rev_digits (l : List Nat) (h : ∀ d ∈ l, d < 10) :
    l.reverse.foldl (fun a c => 10 * a + ((digitChar c).toNat - 48)) 0 = Nat.ofDigits 10 l := by
  induction l with
  | nil => rfl
  | cons d l ih =>
    rw [List.reverse_cons, List.foldl_append, List.foldl_cons, List.foldl_nil,
      ih (fun d hd => h d (by simp [hd]))]
    rw [digitChar_toNat (h d (by simp)), Nat.ofDigits_cons]
    omega

theorem parseDigits_natChars (n : Nat) : parseDigits (natChars n) = n := by
  by_cases h0 : n = 0
  · subst h0; decide
  · rw [natChars_eq_digits n h0]
    simp only [parseDigits, List.foldl_map]
    rw [foldl_rev_digits _ (fun d hd => Nat.digits_lt_base (by norm_num) hd)]
    exact_mod_cast Nat.ofDigits_digits 10 n

theorem parseNatColon_render (n : Nat) (rest : List Char) :
    parseNatColon (natChars n ++ ':' :: rest) = some (n, rest) := by
  have htake : (natChars n ++ ':' :: rest).takeWhile isDig = natChars n := by
    rw [List.takeWhile_append_of_pos (natChars_all_dig n)]
    simp [List.takeWhile_cons, isDig]
  have hdrop : (natChars n ++ ':' :: rest).dropWhile isDig = ':' :: rest := by
    rw [List.dropWhile_append_of_pos (natChars_all_dig n)]
    simp [List.dropWhile_cons, isDig]
  simp only [parseNatColon, htake, hdrop]
  rw [if_neg (by simpa using natChars_ne_nil n)]
  rw [parseDigits_natChars]

theorem parseStr_render (s : String) (rest : List Char) :
    parseStr (renderStr s ++ rest) = some (s, rest) := by
  have heq : renderStr s ++ rest = natChars s.length ++ ':' :: (s.data ++ rest) := by
    simp [renderStr]
  rw [heq, parseStr, parseNatColon_render]
  have hlen : s.length ≤ (s.data ++ rest).length := by
    rw [List.length_append]
    exact Nat.le_add_right s.data.length rest.length
  simp only [Option.bind_eq_bind, Option.some_bind, hlen, if_true]
  have hslen : s.length = s.data.length := rfl
  rw [hslen, List.take_left, List.drop_left]

theorem parseStrs_render (l : List String) (rest : List Char) :
    parseStrs l.length ((l.map renderStr).flatten ++ rest) = some (l, rest) := by
  induction l generalizing rest with
  | nil => rfl
  | cons s l ih =>
    simp only [List.length_cons, List.map_cons, List.flatten_cons, parseStrs,
      List.append_assoc]
    rw [parseStr_render]
    simp only [Option.bind_eq_bind, Option.some_bind]
    rw [ih rest]
    rfl

theorem parseValue_render (v : Value) (rest : List Char) :
    parseValue (renderValue v ++ rest) = some (v, rest) := by
  match v with
  | .vnone => rfl
  | .vbool true => rfl
  | .vbool false => rfl
  | .vstr s =>
    simp only [renderValue, List.cons_append, parseValue]
    rw [parseStr_render]
    rfl
  | .vlist l =>
    simp only [renderValue, List.cons_append, List.append_assoc, List.cons_append, parseValue]
    rw [parseNatColon_render]
    simp only [Option.bind_eq_bind, Option.some_bind]
    rw [parseStrs_render]
    rfl

theorem parseConn_render (c : Conn) (rest : List Char) :
    parseConn (connChar c :: rest) = some (c, rest) := by
  cases c <;> rfl

theorem parseNeg_render (n : Bool) (rest : List Char) :
    parseNeg (negChar n :: rest) = some (n, rest) := by
  cases n <;> rfl

/-- Nesting depth of a tree (for parser fuel). -/
def qDepth : QT → Nat
  | .kw _ _ => 1
  | .node cs _ _ => 1 + ((cs.attach.map (fun x => qDepth x.1)).foldr max 0)
termination_by q => sizeOf q
decreasing_by
  have := List.sizeOf_lt_of_mem x.2
  simp_wf
  omega

/-- Structural induction principle for `QT` (the nested `List` makes the
auto-generated recursor awkward to use directly). -/
theorem QT.indOn {P : QT → Prop} (hkw : ∀ k v, P (.kw k v))
    (hnode : ∀ cs c n, (∀ x ∈ cs, P x) → P (.node cs c n)) : ∀ q : QT, P q
  | .kw k v => hkw k v
  | .node cs c n => hnode cs c n (fun x _ => QT.indOn hkw hnode x)
termination_by q => sizeOf q
decreasing_by
  rename_i hx
  have := List.sizeOf_lt_of_mem hx
  simp_wf
  omega

theorem renderQTList_eq (cs : List QT) :
    renderQTList cs = (cs.map renderQT).flatten := by
  induction cs with
  | nil => rfl
  | cons q qs ih => rw [renderQTList, ih]; simp

theorem renderQT_node (cs : List QT) (c : Conn) (n : Bool) :
    renderQT (.node cs c n) =
      'Q' :: connChar c :: negChar n :: natChars cs.length
        ++ ':' :: (cs.map renderQT).flatten := by
  rw [renderQT, renderQTList_eq]

theorem qDepth_node (cs : List QT) (c : Conn) (n : Bool) :
    qDepth (.node cs c n) = 1 + (cs.map qDepth).foldr max 0 := by
  rw [qDepth]
  rw [List.attach_map_val cs qDepth]

theorem qDepth_pos (q : QT) : 1 ≤ qDepth q := by
  cases q with
  | kw k v => rw [qDepth]
  | node cs c n => rw [qDepth_node]; omega

theorem le_foldr_max {l : List Nat} {x : Nat} (hx : x ∈ l) : x ≤ l.foldr max 0 := by
  induction l with
  | nil => cases hx
  | cons y l ih =>
    rcases List.mem_cons.mp hx with rfl | hx
    · exact Nat.le_max_left _ _
    · exact le_trans (ih hx) (Nat.le_max_right _ _)

theorem qDepth_child_lt {x : QT} {cs : List QT} (hx : x ∈ cs) (c : Conn) (n : Bool) :
    qDepth x < qDepth (.node cs c n) := by
  rw [qDepth_node]
  have := le_foldr_max (List.mem_map_of_mem qDepth hx)
  omega

theorem foldr_max_le {l : List Nat} {b : Nat} (h : ∀ x ∈ l, x ≤ b) : l.foldr max 0 ≤ b := by
  induction l with
  | nil => exact Nat.zero_le b
  | cons y l ih =>
    simp only [List.foldr_cons]
    exact max_le (h y (by simp)) (ih (fun x hx => h x (by simp [hx])))

theorem length_flatten_ge {l : List (List Char)} {x : List Char} (hx : x ∈ l) :
    x.length ≤ l.flatten.length := by
  induction l with
  | nil => cases hx
  | cons y l ih =>
    simp only [List.flatten_cons, List.length_append]
    rcases List.mem_cons.mp hx with rfl | hx
    · omega
    · have := ih hx; omega

/-- The rendering is at least as long as the tree is deep (so the input length
is enough parser fuel). -/
theorem qDepth_le_length_render (q : QT) : qDepth q ≤ (renderQT q).length := by
  induction q using QT.indOn with
  | hkw k v => rw [qDepth, renderQT]; simp
  | hnode cs c n ih =>
    rw [qDepth_node, renderQT_node]
    simp only [List.cons_append, List.length_cons, List.length_append]
    have hmax : (cs.map qDepth).foldr max 0 ≤ (cs.map renderQT).flatten.length := by
      apply foldr_max_le
      intro x hx
      obtain ⟨q, hq, rfl⟩ := List.mem_map.mp hx
      exact le_trans (ih q hq) (length_flatten_ge (List.mem_map_of_mem renderQT hq))
    omega

theorem parseChildrenF_render (p : List Char → Option (QT × List Char)) (cs : List QT)
    (ih : ∀ x ∈ cs, ∀ rest, p (renderQT x ++ rest) = some (x, rest)) :
    ∀ rest, parseChildrenF p cs.length ((cs.map renderQT).flatten ++ rest) = some (cs, rest) := by
  induction cs with
  | nil => intro rest; rfl
  | cons q cs ihl =>
    intro rest
    simp only [List.length_cons, List.map_cons, List.flatten_cons, List.append_assoc]
    rw [parseChildrenF]
    simp only
    rw [ih q (by simp) ((cs.map renderQT).flatten ++ rest)]
    simp only [Option.bind_eq_bind, Option.some_bind]
    rw [ihl (fun x hx rest => ih x (by simp [hx]) rest) rest]
    rfl

/-- Parsing inverts rendering, given enough fuel. -/
theorem parseQT_render (fuel : Nat) :
    ∀ q : QT, qDepth q < fuel →
      ∀ rest, parseQT fuel (renderQT q ++ rest) = some (q, rest) := by
  induction fuel with
  | zero =>
    intro q hq
    exact absurd hq (by have := qDepth_pos q; omega)
  | succ f ihf =>
    intro q hq rest
    match q with
    | .kw k v =>
      rw [renderQT]
      simp only [List.cons_append, List.append_assoc]
      rw [parseQT]
      simp only
      rw [parseStr_render]
      simp only [Option.bind_eq_bind, Option.some_bind]
      rw [parseValue_render]
      rfl
    | .node cs c n =>
      rw [renderQT_node]
      simp only [List.cons_append, List.append_assoc, List.cons_append]
      rw [parseQT]
      simp only
      rw [parseConn_render]
      simp only [Option.bind_eq_bind, Option.some_bind]
      rw [parseNeg_render]
      simp only [Option.some_bind]
      rw [parseNatColon_render]
      simp only [Option.some_bind]
      have hch : ∀ x ∈ cs, ∀ r, parseQT f (renderQT x ++ r) = some (x, r) := by
        intro x hx r
        exact ihf x (by have := qDepth_child_lt hx c n; omega) r
      rw [parseChildrenF_render (parseQT f) cs hch rest]
      rfl

/-- Decoding inverts encoding: a token produced by `dumps` loads back to the
same tree. -/
theorem loads_dumps {q : QT} {tok : String} (h : dumps q = .ok tok) :
    loads tok = .ok q := by
  have htok : tok = String.mk (renderQT q) := by
    simp only [dumps] at h
    by_cases hb : BUDGET < (renderQT q).length
    · rw [if_pos hb] at h; cases h
    · rw [if_neg hb] at h; cases h; rfl
  subst htok
  have hdata : (String.mk (renderQT q)).data = renderQT q := rfl
  rw [loads, hdata]
  have hfuel : qDepth q < (renderQT q).length + 1 :=
    Nat.lt_succ_of_le (qDepth_le_length_render q)
  have := parseQT_render ((renderQT q).length + 1) q hfuel []
  rw [List.append_nil] at this
  rw [this]

/-! ## Flattening a compiled tree back into edit rows -/

/-- The raw-decoded edit row of one condition: the stored kwarg key and value,
the default operator, and the condition's negate flag. -/
def rowOf (c : Condition) : Row :=
  ⟨(build_query_dict c).1, "iexact", (build_query_dict c).2, none, none, c.negate, false⟩

theorem flatRowsList_eq (neg : Bool) (cs : List QT) :
    flatRowsList neg cs = (cs.map (flatRows neg)).flatten := by
  induction cs with
  | nil => rfl
  | cons q qs ih => rw [flatRowsList, ih]; simp

theorem flatRows_node (neg : Bool) (cs : List QT) (c : Conn) (n : Bool) :
    flatRows neg (.node cs c n) = (cs.map (flatRows (xor neg n))).flatten := by
  rw [flatRows, flatRowsList_eq]

theorem flatten_map_singleton {α β : Type} (l : List α) (f : α → β) :
    (l.map (fun a => [f a])).flatten = l.map f := by
  induction l with
  | nil => rfl
  | cons a l ih => simp [ih]

theorem flatRows_mkChild (c : Condition) :
    flatRows false (mkChild c) = [rowOf c] := by
  by_cases hneg : c.negate = true
  · simp only [mkChild, hneg, if_true]
    rw [flatRows_node]
    simp [flatRows, rowOf, hneg]
  · simp only [Bool.not_eq_true] at hneg
    simp only [mkChild, hneg, Bool.false_eq_true, if_false]
    simp [flatRows, rowOf, hneg]

theorem flatRows_andNode (g : List Condition) :
    flatRows false (andNode g) = g.map rowOf := by
  rw [andNode, flatRows_node]
  simp only [Bool.xor_false, List.map_map]
  rw [show (flatRows false ∘ mkChild) = fun c => [rowOf c] from funext flatRows_mkChild]
  exact flatten_map_singleton g rowOf

/-- Flattening a single AND-group tree yields exactly the group rows, with no
separator rows. -/
theorem get_field_values_list_andNode (g : List Condition) :
    get_field_values_list (andNode g) = g.map rowOf := by
  rw [show get_field_values_list (andNode g) = flatRows false (andNode g) from rfl]
  exact flatRows_andNode g

/-! ## Round-tripping one condition through flatten and re-parse -/

/-- Is a value a plain text value. -/
def isStrVal : Value → Bool
  | .vstr _ => true
  | _ => false

/-- A condition that survives the round trip unchanged in meaning: not
deleted, not an `_OR` marker, and either a boolean-valued operator
(`istrue`/`isfalse`) on a field path that the suffix split leaves alone, or a
value-comparison operator other than `isnull` with a plain string value whose
stored key splits back into exactly the original field and operator. -/
def condOK (c : Condition) : Prop :=
  c.delete = false ∧ c.field ≠ "_OR" ∧
  (((c.op = "istrue" ∨ c.op = "isfalse") ∧ splitFieldOp c.field "iexact" = (c.field, "iexact")) ∨
   (c.op ≠ "istrue" ∧ c.op ≠ "isfalse" ∧ c.op ≠ "isnull" ∧ isStrVal c.value = true ∧
    splitFieldOp (c.field ++ "__" ++ c.op) "iexact" = (c.field, c.op)))

instance (c : Condition) : Decidable (condOK c) := by
  unfold condOK
  infer_instance

/-- The result of `_parse_query_dict` under the all-resolving catalog (with
which it never raises). -/
def parseFun (r : Row) : Row :=
  ((parse_query_dict (fun _ => true) r).toOption).getD r

theorem parseFun_eq {r r' : Row} (h : parse_query_dict (fun _ => true) r = .ok r') :
    parseFun r = r' := by
  simp only [parseFun, h]
  rfl

theorem mapM_ok_of_forall {ee : Type} (rows : List Row) (f : Row → Except ee Row)
    (g : Row → Row) (h : ∀ r ∈ rows, f r = .ok (g r)) :
    rows.mapM f = .ok (rows.map g) := by
  induction rows with
  | nil => rfl
  | cons r rows ih =>
    rw [List.mapM_cons, h r (by simp), ih (fun r hr => h r (by simp [hr]))]
    rfl

/-- A `condOK` condition's flattened row re-parses into a condition that is
again a plain row and contributes the identical group child. -/
theorem phi_spec (c : Condition) (h : condOK c) :
    plainCond (toCondition (parseFun (rowOf c))) = true ∧
    mkChild (toCondition (parseFun (rowOf c))) = mkChild c ∧
    parse_query_dict (fun _ => true) (rowOf c) = .ok (parseFun (rowOf c)) := by
  obtain ⟨hd, hf, hcase⟩ := h
  rcases hcase with ⟨hop, hsplit⟩ | ⟨ht, hfa, hn, hv, hsplit⟩
  · rcases hop with hop | hop
    · have hbqd : build_query_dict c = (c.field, .vbool true) := by
        simp [build_query_dict, hop]
      have hrow : rowOf c = ⟨c.field, "iexact", .vbool true, none, none, c.negate, false⟩ := by
        simp [rowOf, hbqd]
      have hparse : parse_query_dict (fun _ => true) (rowOf c) =
          .ok ⟨c.field, "istrue", .vnone, none, none, c.negate, false⟩ := by
        rw [hrow]
        simp [parse_query_dict, hf, hsplit]
      rw [parseFun_eq hparse]
      refine ⟨?_, ?_, hparse⟩
      · simp [plainCond, toCondition, hf]
      · simp [mkChild, toCondition, build_query_dict, hbqd, hop]
    · have hbqd : build_query_dict c = (c.field, .vbool false) := by
        simp [build_query_dict, hop]
      have hrow : rowOf c = ⟨c.field, "iexact", .vbool false, none, none, c.negate, false⟩ := by
        simp [rowOf, hbqd]
      have hparse : parse_query_dict (fun _ => true) (rowOf c) =
          .ok ⟨c.field, "isfalse", .vnone, none, none, c.negate, false⟩ := by
        rw [hrow]
        simp [parse_query_dict, hf, hsplit]
      rw [parseFun_eq hparse]
      refine ⟨?_, ?_, hparse⟩
      · simp [plainCond, toCondition, hf]
      · simp [mkChild, toCondition, build_query_dict, hbqd, hop]
  · obtain ⟨s, hs⟩ : ∃ s, c.value = .vstr s := by
      cases hve : c.value <;> simp [isStrVal, hve] at hv ⊢
    have hbqd : build_query_dict c = (c.field ++ "__" ++ c.op, c.value) := by
      simp [build_query_dict, ht, hfa, hn]
    have hrow : rowOf c =
        ⟨c.field ++ "__" ++ c.op, "iexact", c.value, none, none, c.negate, false⟩ := by
      simp [rowOf, hbqd]
    have hfor : c.field ++ "__" ++ c.op ≠ "_OR" := by
      intro hcontra
      rw [hcontra] at hsplit
      rw [show splitFieldOp "_OR" "iexact" = ("_OR", "iexact") from by decide] at hsplit
      have hcf : c.field = "_OR" := by
        have := congrArg Prod.fst hsplit
        simpa using this.symm
      exact hf hcf
    have hparse : parse_query_dict (fun _ => true) (rowOf c) =
        .ok ⟨c.field, c.op, c.value, none, none, c.negate, false⟩ := by
      rw [hrow]
      simp only [parse_query_dict, hfor, if_false, hsplit, Bool.not_true, Bool.false_eq_true,
        if_false, hs]
    rw [parseFun_eq hparse]
    refine ⟨?_, ?_, hparse⟩
    · simp [plainCond, toCondition, hf]
    · simp [mkChild, toCondition, build_query_dict]

/-! ## Assembling the round trip -/

theorem andNode_map_congr {φ : Condition → Condition} {g : List Condition}
    (h : ∀ c ∈ g, mkChild (φ c) = mkChild c) : andNode (g.map φ) = andNode g := by
  simp only [andNode, List.map_map]
  congr 1
  exact List.map_congr_left (fun c hc => h c hc)

/-- The `_OR` separator condition row. -/
def orCond : Condition := ⟨"_OR", "iexact", .vnone, false, false⟩

/-- The round-trip law for a separator-free group: compile, encode, decode in
raw mode, flatten, re-parse each row, rebuild the conditions; the rebuilt
sequence is again separator-free and compiles to the identical tree. -/
theorem recompiled_plain (g : List Condition) (h : ∀ c ∈ g, condOK c)
    (tok : String) (htok : dumps (andNode g) = .ok tok) :
    recompiled g = .ok (g.map (fun c => toCondition (parseFun (rowOf c)))) ∧
    generate_query (g.map (fun c => toCondition (parseFun (rowOf c)))) = generate_query g := by
  have hall : g.all plainCond = true := by
    simp only [List.all_eq_true]
    intro c hc
    obtain ⟨hd, hf, _⟩ := h c hc
    simp [plainCond, hd, hf]
  have hgen : generate_query g = .ok (andNode g) := generate_query_plain g hall
  have hloads : loads tok = .ok (andNode g) := loads_dumps htok
  have hrows : loadsRaw tok = .ok (g.map rowOf) := by
    rw [loadsRaw, hloads]
    simp only [Except.map]
    rw [get_field_values_list_andNode]
  have hparseRows : ∀ r ∈ g.map rowOf,
      parse_query_dict (fun _ => true) r = .ok (parseFun r) := by
    intro r hr
    obtain ⟨c, hc, rfl⟩ := List.mem_map.mp hr
    exact (phi_spec c (h c hc)).2.2
  have hmapM : (g.map rowOf).mapM (parse_query_dict (fun _ => true))
      = .ok ((g.map rowOf).map parseFun) :=
    mapM_ok_of_forall _ _ _ hparseRows
  constructor
  · simp only [recompiled, hgen, htok, hrows, hmapM]
    simp [List.map_map, Function.comp]
  · have hall2 : (g.map (fun c => toCondition (parseFun (rowOf c)))).all plainCond = true := by
      simp only [List.all_eq_true]
      intro c2 hc2
      obtain ⟨c, hc, rfl⟩ := List.mem_map.mp hc2
      exact (phi_spec c (h c hc)).1
    rw [generate_query_plain _ hall2, hgen]
    exact congrArg Except.ok (andNode_map_congr (fun c hc => (phi_spec c (h c hc)).2.1))

/-! ## Concrete rows used by the claims -/

/-- Example condition: `status equals "open"`. -/
def cOpen : Condition := ⟨"status", "iexact", .vstr "open", false, false⟩

/-- Example condition: `status equals "pending"`. -/
def cPending : Condition := ⟨"status", "iexact", .vstr "pending", false, false⟩

/-- The children of a `Q` node. -/
def qtChildren : QT → List QT
  | .kw _ _ => []
  | .node cs _ _ => cs

/-! ## Claim theorems -/

/-- C1 counterexample: the round trip is not semantics-preserving as claimed.
The single-row sequence `[flag isnull]` is valid (no deleted rows, no `_OR`
separators), compiles to the comparison `flag__isnull: True`, but its
flattened row (`field "flag__isnull"`, value `True`) is re-normalized by
`_parse_query_dict` into an `istrue` row (models.py lines 104-106), so the
re-compiled tree holds the different comparison `flag: True` (IS TRUE instead
of IS NULL). -/
theorem C1_roundtrip_cex :
    recompiled [⟨"flag", "isnull", .vnone, false, false⟩]
        = .ok [⟨"flag", "istrue", .vnone, false, false⟩] ∧
      generate_query [⟨"flag", "isnull", .vnone, false, false⟩]
        = .ok (.node [.kw "flag__isnull" (.vbool true)] .and false) ∧
      generate_query [⟨"flag", "istrue", .vnone, false, false⟩]
        = .ok (.node [.kw "flag" (.vbool true)] .and false) ∧
      QT.node [.kw "flag" (.vbool true)] .and false
        ≠ QT.node [.kw "flag__isnull" (.vbool true)] .and false := by
  refine ⟨rfl, rfl, rfl, ?_⟩
  simp

/-- C1 (amended): any sequence containing an undeleted `_OR` separator never
completes the round trip — `generate_query` raises `NameError: name 'operator'
is not defined` (admin.py line 244, `operator` never imported) before any tree
exists — so the law is restricted to separator-free sequences: for a single
AND-group of round-trip-safe rows (`condOK`: boolean operators
`istrue`/`isfalse` on field paths the suffix split leaves alone, or
non-`isnull` value operators with plain string values and cleanly splittable
keys) whose encoded token fits the storage budget, compiling, encoding,
raw-decoding, flattening, re-parsing and re-compiling reproduces the identical
predicate tree: the same comparisons, in the same order. -/
theorem C1_roundtrip (g : List Condition) (h : ∀ c ∈ g, condOK c)
    (tok : String) (htok : dumps (andNode g) = .ok tok) :
    (recompiled g = .ok (g.map (fun c => toCondition (parseFun (rowOf c)))) ∧
      generate_query (g.map (fun c => toCondition (parseFun (rowOf c))))
        = generate_query g) ∧
    (∀ conds, hasUndeletedOr conds = true →
      recompiled conds = .error "generate_query raised") := by
  refine ⟨recompiled_plain g h tok htok, ?_⟩
  intro conds hconds
  simp only [recompiled, generate_query_or_raises conds hconds]

/-- C1 witness: the round-trip equation at the one-group example
`[status equals "open", status equals "pending"]`, and the crash clause at the
one-separator sequence `[_OR]`. -/
theorem C1_roundtrip_witness :
    recompiled [cOpen, cPending]
        = .ok ([cOpen, cPending].map (fun c => toCondition (parseFun (rowOf c)))) ∧
    generate_query ([cOpen, cPending].map (fun c => toCondition (parseFun (rowOf c))))
        = generate_query [cOpen, cPending] ∧
    recompiled [orCond] = .error "generate_query raised" :=
  ⟨(C1_roundtrip [cOpen, cPending] (by decide) _ rfl).1.1,
   (C1_roundtrip [cOpen, cPending] (by decide) _ rfl).1.2,
   (C1_roundtrip [cOpen, cPending] (by decide) _ rfl).2 [orCond] (by decide)⟩

/-- C2 (code bug): `generate_query` does skip every deleted row, does compile
a sequence with no undeleted rows to the match-everything `Q()` (not an
error), and does compile a separator-free sequence of plain rows to its single
conjunction in input order; but any sequence containing an undeleted `_OR`
marker — including the claim's `[status equals "open", _OR, status equals
"pending"]` example — raises `NameError: name 'operator' is not defined` at
`reduce(operator.or_, ORed)` (admin.py line 244; the module never imports
`operator`), so the claimed OR of the groups is never built. -/
theorem C2_generate_query :
    (∀ conds, generate_query conds = generate_query (conds.filter (fun c => !c.delete))) ∧
    (∀ conds, (∀ c ∈ conds, c.delete = true) → generate_query conds = .ok qEmpty) ∧
    (∀ g, g.all plainCond = true → generate_query g = .ok (andNode g)) ∧
    (∀ conds, hasUndeletedOr conds = true →
      generate_query conds = .error (.nameError "operator")) ∧
    generate_query [cOpen, orCond, cPending] = .error (.nameError "operator") :=
  ⟨generate_query_filter_delete, generate_query_all_deleted,
   generate_query_plain, generate_query_or_raises, rfl⟩

/-- C2 witness: the quantified clauses at concrete inputs — a sequence whose
only row is deleted compiles to `Q()`, a one-group sequence compiles to its
conjunction, and a sequence holding one `_OR` marker raises. -/
theorem C2_generate_query_witness :
    generate_query [⟨"status", "iexact", .vstr "open", false, true⟩] = .ok qEmpty ∧
    generate_query [cOpen] = .ok (andNode [cOpen]) ∧
    generate_query [orCond] = .error (.nameError "operator") :=
  ⟨C2_generate_query.2.1 _ (by decide),
   C2_generate_query.2.2.1 [cOpen] (by decide),
   C2_generate_query.2.2.2.1 [orCond] (by decide)⟩

/-- C3 counterexample: an `_OR` separator met while the current AND-group
accumulator is empty is NOT a no-op — `ORed.append(query)` (admin.py line 237)
is unconditional, so the leading separator in `[_OR, status equals "open"]`
pushes the empty `Q()` into the completed-groups list; compiling then raises
`NameError` at line 244 instead of returning any tree. -/
theorem C3_no_empty_group_cex :
    genStep (qEmpty, []) orCond = (qEmpty, [qEmpty]) ∧
    ([orCond, cOpen].foldl genStep (qEmpty, [])).2 = [qEmpty] ∧
    generate_query [orCond, cOpen] = .error (.nameError "operator") :=
  ⟨rfl, rfl, rfl⟩

/-- C3 (amended): every undeleted `_OR` row pushes the current accumulator —
empty or not — into the completed-groups list `ORed`, so leading and duplicate
separators do put empty groups there; and no `_OR` separator is ever a no-op
at the function level, the trailing case included: once `ORed` is non-empty
`generate_query` raises `NameError: name 'operator' is not defined` (admin.py
line 244; `operator` is never imported) instead of returning a tree, while the
same sequence without the separator compiles to its conjunction. -/
theorem C3_or_separator :
    (∀ (st : QT × List QT) (c : Condition), c.field = "_OR" → c.delete = false →
      genStep st c = (qEmpty, st.2 ++ [st.1])) ∧
    (∀ conds, hasUndeletedOr conds = true →
      generate_query conds = .error (.nameError "operator")) ∧
    (∀ g, g.all plainCond = true →
      generate_query (g ++ [orCond]) = .error (.nameError "operator") ∧
      generate_query g = .ok (andNode g)) := by
  refine ⟨genStep_or, generate_query_or_raises, ?_⟩
  intro g hg
  refine ⟨?_, generate_query_plain g hg⟩
  apply generate_query_or_raises
  simp [hasUndeletedOr, orCond]

/-- C3 witness: the amended clauses at concrete inputs — pushing a completed
group and pushing the empty accumulator, a trailing separator raising, and the
separator-free sequence compiling. -/
theorem C3_or_separator_witness :
    genStep (andNode [cOpen], []) orCond = (qEmpty, [andNode [cOpen]]) ∧
    generate_query [cOpen, orCond, orCond] = .error (.nameError "operator") ∧
    generate_query ([cOpen] ++ [orCond]) = .error (.nameError "operator") ∧
    generate_query [cOpen] = .ok (andNode [cOpen]) :=
  ⟨C3_or_separator.1 (andNode [cOpen], []) orCond rfl rfl,
   C3_or_separator.2.1 [cOpen, orCond, orCond] (by decide),
   (C3_or_separator.2.2 [cOpen] (by decide)).1,
   (C3_or_separator.2.2 [cOpen] (by decide)).2⟩

/-- C4: serialization raises `budgetExceeded` at encode time whenever the
encoded token would exceed the 2048-character storage budget; a successful
encode always returns a token within the budget; the `query` setter propagates
the encode-time error before any write, and any filter it does store carries a
token within the budget — so a truncated filter is never stored. -/
theorem C4_budget :
    (∀ q, BUDGET < (renderQT q).length → dumps q = .error .budgetExceeded) ∧
    (∀ q tok, dumps q = .ok tok → tok.length ≤ BUDGET) ∧
    (∀ af q, BUDGET < (renderQT q).length →
      querySetter af (.q q) = .error .budgetExceeded) ∧
    (∀ af v af', querySetter af v = .ok af' → af'.b64_query.length ≤ BUDGET) := by
  have h1 : ∀ q, BUDGET < (renderQT q).length → dumps q = .error .budgetExceeded := by
    intro q hq
    simp [dumps, hq]
  have h2 : ∀ q tok, dumps q = .ok tok → tok.length ≤ BUDGET := by
    intro q tok h
    simp only [dumps] at h
    by_cases hb : BUDGET < (renderQT q).length
    · rw [if_pos hb] at h; cases h
    · rw [if_neg hb] at h
      cases h
      exact le_of_not_lt hb
  refine ⟨h1, h2, ?_, ?_⟩
  · intro af q hq
    simp [querySetter, h1 q hq, Except.map]
  · intro af v af' h
    cases v with
    | other s => cases h
    | q q =>
      simp only [querySetter] at h
      rcases hd : dumps q with e | tok
      · rw [hd] at h; cases h
      · rw [hd] at h
        simp only [Except.map] at h
        cases h
        exact h2 q tok hd

/-- A group of 500 copies of one plain condition compiles to an AND node with
500 kwarg children. -/
theorem generate_query_replicate (n : Nat) (c : Condition) (h : plainCond c = true) :
    generate_query (List.replicate n c)
      = .ok (.node (List.replicate n (mkChild c)) .and false) := by
  have hall : (List.replicate n c).all plainCond = true := by
    simp only [List.all_eq_true]
    intro x hx
    rw [List.eq_of_mem_replicate hx]
    exact h
  rw [generate_query_plain _ hall]
  simp [andNode, List.map_replicate]

theorem sum_replicate_nat (n k : Nat) : (List.replicate n k).sum = n * k := by
  induction n with
  | zero => simp
  | succ m ih => simp [List.replicate_succ, ih, Nat.succ_mul]; omega

/-- The token length of a rendered node: header plus the children's rendered
lengths. -/
theorem renderQT_node_length (cs : List QT) (c : Conn) (n : Bool) :
    (renderQT (QT.node cs c n)).length
      = 4 + (natChars cs.length).length + ((cs.map renderQT).map List.length).sum := by
  rw [renderQT_node]
  simp only [List.cons_append, List.length_cons, List.length_append, List.length_flatten]
  omega

/-- The condition of the C4 example: a 200-character value. -/
def cond200 : Condition :=
  ⟨"f", "iexact", .vstr (String.mk (List.replicate 200 'a')), false, false⟩

/-- C4 witness: 500 conditions with 200-character values compile to a tree
that encodes to more than 2048 characters, so `dumps` and the setter raise
`budgetExceeded` there. -/
theorem C4_budget_witness :
    generate_query (List.replicate 500 cond200)
        = .ok (.node (List.replicate 500 (mkChild cond200)) .and false) ∧
      dumps (.node (List.replicate 500 (mkChild cond200)) .and false)
        = .error .budgetExceeded ∧
      querySetter ⟨"t", "u", "", "m"⟩
          (.q (.node (List.replicate 500 (mkChild cond200)) .and false))
        = .error .budgetExceeded := by
  have hK : (renderQT (mkChild cond200)).length = 217 := rfl
  have hlen : BUDGET < (renderQT (.node (List.replicate 500 (mkChild cond200)) .and false)).length := by
    rw [renderQT_node_length, List.map_replicate, List.map_replicate, hK,
      sum_replicate_nat, List.length_replicate]
    have hn : (natChars 500).length = 3 := rfl
    rw [hn]
    show 2048 < _
    omega
  exact ⟨generate_query_replicate 500 cond200 (by decide),
    C4_budget.1 _ hlen, C4_budget.2.2.1 _ _ hlen⟩

/-- C5: in `_parse_query_dict`, a `None` value forces the operator to
`isnull` whatever operator the row supplied; a `True` value forces `istrue`
and a `False` value forces `isfalse`, and in both boolean cases the stored
value is cleared to `None`.  (An `_OR` marker row returns early at line 80
and is not a condition row.) -/
theorem C5_value_normalization (res : String → Bool) (r r' : Row)
    (h : parse_query_dict res r = .ok r') (hf : r.field ≠ "_OR") :
    (r.value = .vnone → r'.op = "isnull") ∧
    (r.value = .vbool true → r'.op = "istrue" ∧ r'.value = .vnone) ∧
    (r.value = .vbool false → r'.op = "isfalse" ∧ r'.value = .vnone) := by
  simp only [parse_query_dict, hf, if_false] at h
  by_cases hres : res ((splitFieldOp r.field r.op).1) = true
  · simp only [hres, Bool.not_true, Bool.false_eq_true, if_false] at h
    refine ⟨?_, ?_, ?_⟩ <;> intro hv <;> rw [hv] at h <;> cases h <;>
      first
        | exact ⟨rfl, rfl⟩
        | rfl
  · simp only [Bool.not_eq_true] at hres
    simp [hres] at h

/-- C5 witness: the three normalizations at concrete rows (original operators
`gt`, `iexact`, `range` with null / true / false values). -/
theorem C5_value_normalization_witness :
    ((⟨"a", "isnull", .vnone, none, none, false, false⟩ : Row).op = "isnull") ∧
    ((⟨"a", "istrue", .vnone, none, none, false, false⟩ : Row).op = "istrue" ∧
      (⟨"a", "istrue", .vnone, none, none, false, false⟩ : Row).value = .vnone) ∧
    ((⟨"a", "isfalse", .vnone, none, none, false, false⟩ : Row).op = "isfalse" ∧
      (⟨"a", "isfalse", .vnone, none, none, false, false⟩ : Row).value = .vnone) :=
  ⟨(C5_value_normalization (fun _ => true)
      ⟨"a", "gt", .vnone, none, none, false, false⟩ _ rfl (by decide)).1 rfl,
   (C5_value_normalization (fun _ => true)
      ⟨"a", "iexact", .vbool true, none, none, false, false⟩ _ rfl (by decide)).2.1 rfl,
   (C5_value_normalization (fun _ => true)
      ⟨"a", "range", .vbool false, none, none, false, false⟩ _ rfl (by decide)).2.2 rfl⟩

/-- C6 (code bug): a row with operator `range` (after the field-path suffix
split) and a list value never receives the claimed `"start,end"`
normalization — the branch (models.py lines 118-121) evaluates
`dt.fromtimestamp(query_data.get('value_from', 0))` and `models.py` never
imports `dt`, so `_parse_query_dict` raises `NameError: name 'dt' is not
defined`; in particular the `created_at` example row raises instead of
storing `"2020-01-01,2020-02-01"`. -/
theorem C6_range_normalization :
    (∀ (res : String → Bool) (r : Row) (l : List String),
      r.field ≠ "_OR" → res ((splitFieldOp r.field r.op).1) = true →
      (splitFieldOp r.field r.op).2 = "range" → r.value = .vlist l →
      parse_query_dict res r = .error (.nameError "dt")) ∧
    parse_query_dict (fun _ => true)
        ⟨"created_at", "range", .vlist ["1577836800", "1580515200"],
          some 1577836800, some 1580515200, false, false⟩
      = .error (.nameError "dt") := by
  refine ⟨?_, rfl⟩
  intro res r l hf hres hop hv
  simp only [parse_query_dict, hf, if_false, hres, Bool.not_true, Bool.false_eq_true,
    hv, hop, if_true]

/-- C6 witness: the general clause applied at a second concrete row carrying a
list value under operator `range`. -/
theorem C6_range_normalization_witness :
    parse_query_dict (fun _ => true)
        ⟨"ts", "range", .vlist ["a"], none, none, false, false⟩
      = .error (.nameError "dt") :=
  C6_range_normalization.1 (fun _ => true)
    ⟨"ts", "range", .vlist ["a"], none, none, false, false⟩ ["a"]
    (by decide) rfl (by decide) rfl

/-- C7 counterexample: a stored key path consisting of a single segment that
is itself an operator name is NOT split.  `"gt"` is in the operator
vocabulary and is the last `__`-segment of the key path `"gt"`, yet
`_parse_query_dict` (guard `len(parts) < 2`) leaves the row unchanged —
the recovered operator stays `icontains`, not `gt`, contradicting the claim's
universal split rule. -/
theorem C7_split_cex :
    ("gt" ∈ OPERATORS) ∧
      ((splitOn2 "gt").getLast?.getD "" = "gt") ∧
      parse_query_dict (fun _ => true) ⟨"gt", "icontains", .vstr "x", none, none, false, false⟩
        = .ok ⟨"gt", "icontains", .vstr "x", none, none, false, false⟩ ∧
      "icontains" ≠ "gt" := by
  refine ⟨by decide, rfl, rfl, by decide⟩

/-- C7 (amended): a stored key path with at least two `__`-segments whose last
segment is a known operator name is split into the joined preceding segments
plus that segment as the operator; a path with fewer than two segments, or
whose last segment is not an operator name, is left unchanged with the
operator untouched; and for rows with plain string values the reconstruction
(`_parse_query_dict`) returns exactly this split's field and operator, so the
split is deterministic. -/
theorem C7_suffix_split :
    (∀ f op, 2 ≤ (splitOn2 f).length → ((splitOn2 f).getLast?.getD "") ∈ OPERATORS →
      splitFieldOp f op = (join2 (splitOn2 f).dropLast, (splitOn2 f).getLast?.getD "")) ∧
    (∀ f op, (splitOn2 f).length < 2 ∨ ((splitOn2 f).getLast?.getD "") ∉ OPERATORS →
      splitFieldOp f op = (f, op)) ∧
    (∀ (res : String → Bool) (r r' : Row) (sv : String),
      parse_query_dict res r = .ok r' → r.field ≠ "_OR" → r.value = .vstr sv →
      (r'.field, r'.op) = splitFieldOp r.field r.op) := by
  refine ⟨?_, ?_, ?_⟩
  · intro f op hlen hmem
    simp [splitFieldOp, Nat.not_lt_of_le hlen, hmem]
  · intro f op h
    rcases h with hlen | hmem
    · simp [splitFieldOp, hlen]
    · by_cases hlen : (splitOn2 f).length < 2
      · simp [splitFieldOp, hlen]
      · simp [splitFieldOp, hlen, hmem]
  · intro res r r' sv h hf hv
    simp only [parse_query_dict, hf, if_false] at h
    by_cases hres : res ((splitFieldOp r.field r.op).1) = true
    · simp only [hres, Bool.not_true, Bool.false_eq_true, if_false, hv] at h
      cases h
      rfl
    · simp only [Bool.not_eq_true] at hres
      simp [hres] at h

/-- C7 witness: the split clauses at concrete key paths — `"a__gt"` splits
into field `"a"` and operator `"gt"`; `"name"` (no operator suffix) is left
unchanged. -/
theorem C7_suffix_split_witness :
    splitFieldOp "a__gt" "iexact" = ("a", "gt") ∧
      splitFieldOp "name" "iexact" = ("name", "iexact") := by
  constructor
  · have := C7_suffix_split.1 "a__gt" "iexact" (by decide) (by decide)
    exact this.trans (by decide)
  · exact C7_suffix_split.2.1 "name" "iexact" (Or.inl (by decide))

/-- C8: `build_query_dict` builds the single kwarg pair — `istrue` gives
`{field: True}` and `isfalse` gives `{field: False}` (bare field key, value
discarded), `isnull` gives `{field__isnull: True}` ignoring the row's value,
and every other operator gives `{field__operator: value}`; `make_query` wraps
the comparison in a negated node exactly when the negate flag is set and
otherwise returns it unwrapped. -/
theorem C8_build_query_dict (c : Condition) :
    (c.op = "istrue" → build_query_dict c = (c.field, .vbool true)) ∧
    (c.op = "isfalse" → build_query_dict c = (c.field, .vbool false)) ∧
    (c.op = "isnull" → build_query_dict c = (c.field ++ "__" ++ "isnull", .vbool true)) ∧
    (c.op ≠ "istrue" → c.op ≠ "isfalse" → c.op ≠ "isnull" →
      build_query_dict c = (c.field ++ "__" ++ c.op, c.value)) ∧
    make_query c = (if c.negate then
        .node [.node [.kw (build_query_dict c).1 (build_query_dict c).2] .and true] .and false
      else .node [.kw (build_query_dict c).1 (build_query_dict c).2] .and false) := by
  refine ⟨?_, ?_, ?_, ?_, ?_⟩
  · intro h; simp [build_query_dict, h]
  · intro h; simp [build_query_dict, h]
  · intro h; simp [build_query_dict, h]
  · intro h1 h2 h3; simp [build_query_dict, h1, h2, h3]
  · rw [make_query_eq]
    cases hneg : c.negate <;> simp [mkChild, hneg]

/-- C8 witness: the kwarg pairs and negation wrapping at concrete
conditions. -/
theorem C8_build_query_dict_witness :
    build_query_dict ⟨"flag", "istrue", .vstr "ignored", false, false⟩ = ("flag", .vbool true) ∧
      build_query_dict ⟨"flag", "isnull", .vstr "ignored", false, false⟩
        = ("flag" ++ "__" ++ "isnull", .vbool true) ∧
      build_query_dict ⟨"age", "gt", .vstr "5", false, false⟩
        = ("age" ++ "__" ++ "gt", .vstr "5") ∧
      make_query ⟨"age", "gt", .vstr "5", true, false⟩
        = (if (⟨"age", "gt", .vstr "5", true, false⟩ : Condition).negate then
            .node [.node [.kw (build_query_dict ⟨"age", "gt", .vstr "5", true, false⟩).1
              (build_query_dict ⟨"age", "gt", .vstr "5", true, false⟩).2] .and true] .and false
          else .node [.kw (build_query_dict ⟨"age", "gt", .vstr "5", true, false⟩).1
              (build_query_dict ⟨"age", "gt", .vstr "5", true, false⟩).2] .and false) :=
  ⟨(C8_build_query_dict _).1 rfl,
   (C8_build_query_dict _).2.2.1 rfl,
   (C8_build_query_dict _).2.2.2.1 (by decide) (by decide) (by decide),
   (C8_build_query_dict _).2.2.2.2⟩

/-- C9: a stored filter whose encoded token is empty (the falsy `CharField`
value, which is also what an absent value stores) never reaches the decoder:
the `query` getter returns `None` and `list_fields` returns the empty row
list, and neither raises. -/
theorem C9_empty_token (af : AdvancedFilter) (h : af.b64_query = "") :
    queryGet af = .ok none ∧ list_fields af = .ok [] := by
  constructor
  · simp [queryGet, h]
  · simp [list_fields, h]

/-- C9 witness: the getter and `list_fields` on a concrete record with an
empty stored token. -/
theorem C9_empty_token_witness :
    queryGet ⟨"title", "url", "", "app.Model"⟩ = .ok none ∧
      list_fields ⟨"title", "url", "", "app.Model"⟩ = .ok [] :=
  C9_empty_token ⟨"title", "url", "", "app.Model"⟩ rfl

/-- C10: the `query` setter raises for every non-`Q` value before any write
(modelled by the error return, which leaves the record untouched); assigning a
`Q` object whose encoding succeeds replaces `b64_query` with exactly that
serialized encoding, and every successful assignment arises that way with all
other fields unchanged. -/
theorem C10_setter :
    (∀ af s, querySetter af (.other s) = .error .notAQObject) ∧
    (∀ af q tok, dumps q = .ok tok →
      querySetter af (.q q) = .ok { af with b64_query := tok }) ∧
    (∀ af v af', querySetter af v = .ok af' →
      ∃ q tok, v = .q q ∧ dumps q = .ok tok ∧ af' = { af with b64_query := tok }) := by
  refine ⟨fun af s => rfl, ?_, ?_⟩
  · intro af q tok h
    simp [querySetter, h, Except.map]
  · intro af v af' h
    cases v with
    | other s => cases h
    | q q =>
      simp only [querySetter] at h
      rcases hd : dumps q with e | tok
      · rw [hd] at h; cases h
      · rw [hd] at h
        simp only [Except.map] at h
        cases h
        exact ⟨q, tok, rfl, hd, rfl⟩

/-- C10 witness: a non-`Q` assignment errors and a small `Q` assignment
stores its token. -/
theorem C10_setter_witness :
    querySetter ⟨"t", "u", "old", "m"⟩ (.other "a string") = .error .notAQObject ∧
      querySetter ⟨"t", "u", "old", "m"⟩ (.q (qKw "status__iexact" (.vstr "open")))
        = .ok ⟨"t", "u", "Q&-1:K14:status__iexactS4:open", "m"⟩ :=
  ⟨C10_setter.1 _ _, C10_setter.2.1 _ (qKw "status__iexact" (.vstr "open")) _ rfl⟩

end AdvFilters
